import Mathlib

/-!
Verification of the rigid-body coordinate-transform engine of `source/aatopology.cpp`
(`pele` repository).

The embedding is split in two parts.

Part A models the array/topology layer (`RigidFragment::to_atomistic`,
`RigidFragment::transform_grad`, `RBTopology::to_atomistic`,
`RBTopology::transform_gradient`, `TransformAACluster::rotate`) over exact
rationals `ℚ`: the C++ `double` arithmetic in these functions is plain `+`/`*`
and the claims about them are structural, so exact arithmetic is the faithful
idealisation.  The external "rotation algebra" library (`pele/rotations.h`,
out of scope per the spec) is an abstract parameter.  Coordinate arrays are
`List ℚ`; a `HackyMatrix` row view of a flat array is modelled by reading three
consecutive entries (`vecAt`), and imperative functions that write into a
caller-supplied buffer and may throw are modelled by returning the final buffer
contents together with an optional error (`List ℚ × Option String`).

Part B models `RBTopology::align_angle_axis_vectors` over `ℝ`, since that
function genuinely uses Euclidean norms and the constant `2π`.  Its two
`while` loops are well-founded recursions whose termination measure comes from
the strict convexity of the squared distance along the step direction.
-/

namespace Pele

/-- A 3-component coordinate block (one `VecN<3>` / one row of a `HackyMatrix`
with 3 columns), over exact rationals. -/
abbrev V3q := Fin 3 → ℚ

/-- A 3×3 matrix over exact rationals. -/
abbrev M3q := Matrix (Fin 3) (Fin 3) ℚ

/-- The black-box rotation-algebra library (`pele/rotations.h`), which the spec
declares out of scope and specifies only at its interface: angle-axis to
rotation matrix, rotation matrix and its three derivative matrices, rotation
matrix back to angle-axis, and composition of two angle-axis rotations.
All Part A definitions and theorems are parametric in it. -/
structure RotationAlgebra where
  aa_to_rot_mat : V3q → M3q
  rot_mat_derivatives : V3q → M3q × M3q × M3q × M3q
  rot_mat_to_aa : M3q → V3q
  rotate_aa : V3q → V3q → V3q

/-- The three derivative matrices `drm1, drm2, drm3` produced by
`rot_mat_derivatives`, indexed by the angle-axis component they differentiate
with respect to. -/
def derivMat (RA : RotationAlgebra) (p : V3q) : Fin 3 → M3q :=
  ![(RA.rot_mat_derivatives p).2.1,
    (RA.rot_mat_derivatives p).2.2.1,
    (RA.rot_mat_derivatives p).2.2.2]

/-- One rigid fragment: its immutable body-frame atom positions
(`_atom_positions`, viewed as the `natoms × 3` matrix `_atom_positions_matrix`,
here a list of rows). -/
structure RigidFragment where
  atom_positions : List V3q

/-- `RigidFragment::natoms()`. -/
def RigidFragment.natoms (f : RigidFragment) : ℕ := f.atom_positions.length

/-- `RigidFragment::to_atomistic` (aatopology.cpp lines 7-29): for every atom
`q` and component `j`, the output entry is `com[j] + Σ_k rmat(j,k) * q(k)`,
the rotation matrix being obtained from the rotation algebra. -/
def RigidFragment.to_atomistic (RA : RotationAlgebra) (f : RigidFragment)
    (com : V3q) (p : V3q) : List V3q :=
  f.atom_positions.map fun q j => com j + ∑ k, RA.aa_to_rot_mat p j k * q k

/-- `RigidFragment::transform_grad` (aatopology.cpp lines 31-76).  The per-atom
gradient `g` is the `HackyMatrix` view of the atomistic gradient (one row per
atom).  First component: `g_com[k] = Σ_atom gmat(atom,k)`.  Second component:
`g_rot` starts from `assign(0)` and accumulates, atom by atom,
`Σ_i Σ_j gmat(atom,i) * drm_m(i,j) * atom_positions(atom,j)` for `m = 0,1,2`. -/
def RigidFragment.transform_grad (RA : RotationAlgebra) (f : RigidFragment)
    (p : V3q) (g : List V3q) : V3q × V3q :=
  (fun k => (g.map fun row => row k).sum,
   (List.zip g f.atom_positions).foldl
     (fun acc aq m => acc m + ∑ i, ∑ j, aq.1 i * derivMat RA p m i j * aq.2 j)
     fun _ => 0)

/-- Serialisation of a list of 3-blocks into a flat coordinate array (the
row-major layout used by every `pele::Array` of 3-D coordinates). -/
def flat3 : List V3q → List ℚ
  | [] => []
  | v :: rest => v 0 :: v 1 :: v 2 :: flat3 rest

/-- Reading the `i`-th 3-block of a flat array: the sub-view
`[3i, 3i+3)` produced by `CoordsAdaptor`/`Array::view`, as a `V3q`.
Out-of-range reads default to `0`; all theorems use it in range. -/
def vecAt (l : List ℚ) (i : ℕ) : V3q :=
  fun j => l.getD (3 * i + (j : ℕ)) 0

/-- A rigid-body topology: its ordered sites plus the count of non-rigid
atoms. -/
structure RBTopology where
  sites : List RigidFragment
  number_of_non_rigid_atoms : ℕ

/-- `RBTopology::nrigid()`: the number of sites. -/
def RBTopology.nrigid (t : RBTopology) : ℕ := t.sites.length

/-- Modelled from the spec: `natoms_total = sum(site.natoms) +
non_rigid_atom_count` (the accessor lives in the header `pele/aatopology.h`,
which is not part of the sources; spec §3 gives this formula).  The lazy
`finalize()` caching step is identity here because the value is derived. -/
def RBTopology.natoms_total (t : RBTopology) : ℕ :=
  (t.sites.map RigidFragment.natoms).sum + t.number_of_non_rigid_atoms

/-- Modelled from the spec: `CoordsAdaptor::get_rb_positions()`, the
all-centers sub-view `[0, 3·nrigid)` of a generalized-coordinate array
(spec §4.2; the adaptor lives in the missing header). -/
def get_rb_positions (nrigid : ℕ) (x : List ℚ) : List ℚ :=
  x.take (3 * nrigid)

/-- Modelled from the spec: `CoordsAdaptor::get_rb_rotations()`, the
all-rotations sub-view `[3·nrigid, 6·nrigid)` (spec §4.2). -/
def get_rb_rotations (nrigid : ℕ) (x : List ℚ) : List ℚ :=
  (x.drop (3 * nrigid)).take (3 * nrigid)

/-- The per-site atomistic blocks computed by the loop of
`RBTopology::to_atomistic` (aatopology.cpp lines 95-105): site `isite` is fed
the center sub-view `rb_pos.view(3·isite, 3·isite+3)` and rotation sub-view
`rb_rot.view(3·isite, 3·isite+3)`, and its result is serialised. -/
def RBTopology.siteBlocks (RA : RotationAlgebra) (t : RBTopology)
    (rbcoords : List ℚ) : List (List ℚ) :=
  (List.range t.nrigid).map fun isite =>
    flat3 ((t.sites.getD isite ⟨[]⟩).to_atomistic RA
      (vecAt (get_rb_positions t.nrigid rbcoords) isite)
      (vecAt (get_rb_rotations t.nrigid rbcoords) isite))

/-- `RBTopology::to_atomistic` (aatopology.cpp lines 78-109).  Size check,
then a freshly allocated array of length `3 * natoms_total()` whose leading
entries are the concatenated site blocks.  The C++ allocation leaves the
trailing `3 * number_of_non_rigid_atoms` entries uninitialised (they are
written by no site; `assert(istart == natoms_total()*3)` only holds when there
are no non-rigid atoms); the model fills them with `0`, and no theorem below
relies on the value of that padding, only on its length. -/
def RBTopology.to_atomistic (RA : RotationAlgebra) (t : RBTopology)
    (rbcoords : List ℚ) : Except String (List ℚ) :=
  if rbcoords.length ≠ t.nrigid * 6 then
    Except.error "rbcoords has the wrong size"
  else
    Except.ok ((t.siteBlocks RA rbcoords).flatten ++
      List.replicate (3 * t.natoms_total - (t.siteBlocks RA rbcoords).flatten.length) 0)

/-- Splitting a flat per-atom gradient block into its 3-component rows (the
`HackyMatrix<double> gmat(g, 3)` view). -/
def chunk3 : List ℚ → List V3q
  | a :: b :: c :: rest => ![a, b, c] :: chunk3 rest
  | _ => []

/-- The site loop of `RBTopology::transform_gradient` (aatopology.cpp lines
133-144): walks the sites in storage order, feeding each site its rotation
sub-view (3 entries of `coords_rot`) and its atomistic-gradient block
(`3 * natoms` entries of `grad`), and collecting the per-site center and
rotation gradients into the center block and rotation block of the output. -/
def gradLoop (RA : RotationAlgebra) :
    List RigidFragment → List ℚ → List ℚ → List ℚ × List ℚ
  | [], _, _ => ([], [])
  | site :: rest, rots, grad =>
    let pr := site.transform_grad RA (fun j => rots.getD (j : ℕ) 0)
      (chunk3 (grad.take (site.natoms * 3)))
    let tail := gradLoop RA rest (rots.drop 3) (grad.drop (site.natoms * 3))
    (pr.1 0 :: pr.1 1 :: pr.1 2 :: tail.1, pr.2 0 :: pr.2 1 :: pr.2 2 :: tail.2)

/-- `RBTopology::transform_gradient` (aatopology.cpp lines 111-146).  The
C++ function writes the result into the caller's buffer `rbgrad` and throws
`std::invalid_argument` on any size mismatch *before* touching the buffer;
the model returns the final buffer contents together with the optional
error. -/
def RBTopology.transform_gradient (RA : RotationAlgebra) (t : RBTopology)
    (rbcoords grad rbgrad : List ℚ) : List ℚ × Option String :=
  if rbcoords.length ≠ t.nrigid * 6 then
    (rbgrad, some "rbcoords has the wrong size")
  else if grad.length ≠ t.natoms_total * 3 then
    (rbgrad, some "grad has the wrong size")
  else if rbgrad.length ≠ rbcoords.length then
    (rbgrad, some "rbgrad has the wrong size")
  else
    ((gradLoop RA t.sites (get_rb_rotations t.nrigid rbcoords) grad).1 ++
     (gradLoop RA t.sites (get_rb_rotations t.nrigid rbcoords) grad).2, none)

/-- `TransformAACluster::rotate` (aatopology.cpp lines 211-244).  The call
first builds `get_coords_adaptor(x)` (line 216); modelled from the spec, that
construction validates the backing array (§4.2: an array shorter than
`6·nrigid + 3·non_rigid_atom_count` is an error, §7: reported before any
mutation, no partial writes).  Past that check, if `nrigid > 0` the center
block is replaced by `rb_pos · mxᵀ` (`hacky_mat_mul(rb_pos, mxT)`: entry
`(i,j)` is `Σ_k rb_pos(i,k) * mxᵀ(k,j)`, modelled from the spec since the
matrix helpers live in the missing headers) and each rotation vector `p` is
replaced by `rotate_aa(p, rot_mat_to_aa(mx))`.  Then, if the topology has
non-rigid atoms, `std::runtime_error` is thrown — *after* the rigid-body
blocks of `x` have already been overwritten.  The model returns the final
buffer contents together with the optional error. -/
def TransformAACluster.rotate (RA : RotationAlgebra) (t : RBTopology)
    (x : List ℚ) (mx : M3q) : List ℚ × Option String :=
  if x.length < 6 * t.nrigid + 3 * t.number_of_non_rigid_atoms then
    (x, some "coords array has the wrong size")
  else
    let x1 :=
      if 0 < t.nrigid then
        flat3 ((List.range t.nrigid).map fun i j =>
            ∑ k, vecAt (get_rb_positions t.nrigid x) i k * mx.transpose k j) ++
        flat3 ((List.range t.nrigid).map fun i =>
            RA.rotate_aa (vecAt (get_rb_rotations t.nrigid x) i) (RA.rot_mat_to_aa mx)) ++
        x.drop (6 * t.nrigid)
      else x
    if 0 < t.number_of_non_rigid_atoms then
      (x1, some "non-rigid atoms is not yet supported")
    else (x1, none)

/-- A 3-component real vector (`pele::VecN<3>`). -/
abbrev V3r := Fin 3 → ℝ

/-- The dot product of two real 3-vectors. -/
noncomputable def dotp (a b : V3r) : ℝ := ∑ i, a i * b i

/-- The squared Euclidean norm of a real 3-vector. -/
noncomputable def nsq (v : V3r) : ℝ := ∑ i, v i * v i

/-- Modelled from the spec: `pele::norm<3>`, the Euclidean norm (the helper
lives in the missing header `pele/vecn.h`; the spec speaks of Euclidean
distance throughout §4.3). -/
noncomputable def vnorm (v : V3r) : ℝ := Real.sqrt (nsq v)

/-- The periodicity step `n2` computed by `RBTopology::align_angle_axis_vectors`
(aatopology.cpp lines 155-163): if `norm(p2) < 1e-6`, `n2 = p1 * (2π/norm(p1))`;
otherwise `n2 = p2 * (2π/norm(p2))`. -/
noncomputable def alignN2 (p1 p2 : V3r) : V3r :=
  if vnorm p2 < 1 / 1000000 then (2 * Real.pi / vnorm p1) • p1
  else (2 * Real.pi / vnorm p2) • p2

/-- The first `while` loop of `align_angle_axis_vectors` (aatopology.cpp lines
165-172): repeatedly step `p2 += n2`, breaking as soon as the candidate is
strictly farther from `p1` than the current point.  Termination requires a
non-degenerate step (`0 < nsq n2`), which the caller establishes; the measure
is the (ceiled, shifted) projection of `p1 - p2` on the step direction, which
drops by exactly 1 each iteration and is forced above `1/2` whenever the loop
continues. -/
noncomputable def addLoop (p1 n2 : V3r) (hn : 0 < nsq n2) (p2 : V3r) : V3r :=
  if h : vnorm (p2 + n2 - p1) > vnorm (p2 - p1) then p2
  else addLoop p1 n2 hn (p2 + n2)
termination_by Nat.ceil (dotp n2 (p1 - p2) / nsq n2 + 1)
decreasing_by
  have hle : vnorm (p2 + n2 - p1) ≤ vnorm (p2 - p1) := not_lt.mp h
  have hnsq0 : (0:ℝ) ≤ nsq (p2 + n2 - p1) :=
    Finset.sum_nonneg fun i _ => mul_self_nonneg _
  have hnsq1 : (0:ℝ) ≤ nsq (p2 - p1) :=
    Finset.sum_nonneg fun i _ => mul_self_nonneg _
  have hsq : nsq (p2 + n2 - p1) ≤ nsq (p2 - p1) := by
    have h1 : vnorm (p2 + n2 - p1) ^ 2 ≤ vnorm (p2 - p1) ^ 2 :=
      pow_le_pow_left₀ (Real.sqrt_nonneg _) hle 2
    rwa [vnorm, vnorm, Real.sq_sqrt hnsq0, Real.sq_sqrt hnsq1] at h1
  have hexp : nsq (p2 + n2 - p1) =
      nsq (p2 - p1) + 2 * dotp n2 (p2 - p1) + nsq n2 := by
    simp [nsq, dotp, Fin.sum_univ_three]
    ring
  have hneg : dotp n2 (p1 - p2) = - dotp n2 (p2 - p1) := by
    simp [dotp, Fin.sum_univ_three]
    ring
  have ht : 1/2 ≤ dotp n2 (p1 - p2) / nsq n2 := by
    rw [le_div_iff₀ hn, hneg]
    linarith
  have hstep : dotp n2 (p1 - (p2 + n2)) / nsq n2 + 1 =
      dotp n2 (p1 - p2) / nsq n2 := by
    have hd : dotp n2 (p1 - (p2 + n2)) = dotp n2 (p1 - p2) - nsq n2 := by
      simp [dotp, nsq, Fin.sum_univ_three]
      ring
    rw [hd]
    field_simp
  rw [hstep, Nat.ceil_add_one (by linarith)]
  exact Nat.lt_succ_self _

/-- The second `while` loop of `align_angle_axis_vectors` (aatopology.cpp lines
174-181): repeatedly step `p2 -= n2`, breaking as soon as the candidate is
strictly farther from `p1`. -/
noncomputable def subLoop (p1 n2 : V3r) (hn : 0 < nsq n2) (p2 : V3r) : V3r :=
  if h : vnorm (p2 - n2 - p1) > vnorm (p2 - p1) then p2
  else subLoop p1 n2 hn (p2 - n2)
termination_by Nat.ceil (dotp n2 (p2 - p1) / nsq n2 + 1)
decreasing_by
  have hle : vnorm (p2 - n2 - p1) ≤ vnorm (p2 - p1) := not_lt.mp h
  have hnsq0 : (0:ℝ) ≤ nsq (p2 - n2 - p1) :=
    Finset.sum_nonneg fun i _ => mul_self_nonneg _
  have hnsq1 : (0:ℝ) ≤ nsq (p2 - p1) :=
    Finset.sum_nonneg fun i _ => mul_self_nonneg _
  have hsq : nsq (p2 - n2 - p1) ≤ nsq (p2 - p1) := by
    have h1 : vnorm (p2 - n2 - p1) ^ 2 ≤ vnorm (p2 - p1) ^ 2 :=
      pow_le_pow_left₀ (Real.sqrt_nonneg _) hle 2
    rwa [vnorm, vnorm, Real.sq_sqrt hnsq0, Real.sq_sqrt hnsq1] at h1
  have hexp : nsq (p2 - n2 - p1) =
      nsq (p2 - p1) - 2 * dotp n2 (p2 - p1) + nsq n2 := by
    simp [nsq, dotp, Fin.sum_univ_three]
    ring
  have ht : 1/2 ≤ dotp n2 (p2 - p1) / nsq n2 := by
    rw [le_div_iff₀ hn]
    linarith
  have hstep : dotp n2 (p2 - n2 - p1) / nsq n2 + 1 =
      dotp n2 (p2 - p1) / nsq n2 := by
    have hd : dotp n2 (p2 - n2 - p1) = dotp n2 (p2 - p1) - nsq n2 := by
      simp [dotp, nsq, Fin.sum_univ_three]
      ring
    rw [hd]
    field_simp
  rw [hstep, Nat.ceil_add_one (by linarith)]
  exact Nat.lt_succ_self _

/-- `RBTopology::align_angle_axis_vectors` (aatopology.cpp lines 148-183):
if both inputs are within the near-identity threshold `1e-6`, return `p2in`
unchanged; otherwise compute the periodicity step `n2` and run the add loop
followed by the subtract loop.  The inline proof shows the step is
non-degenerate: whichever branch `alignN2` takes, its vector is a positive
multiple of a vector of norm at least `1e-6`. -/
noncomputable def alignAngleAxisVectors (p1 p2in : V3r) : V3r :=
  if h : vnorm p2in < 1 / 1000000 ∧ vnorm p1 < 1 / 1000000 then p2in
  else
    have hn : 0 < nsq (alignN2 p1 p2in) := by
      rw [alignN2]
      by_cases h2 : vnorm p2in < 1 / 1000000
      · rw [if_pos h2]
        have h1 : ¬ vnorm p1 < 1 / 1000000 := fun hh => h ⟨h2, hh⟩
        have hv0 : 0 < vnorm p1 := lt_of_lt_of_le (by norm_num) (not_lt.mp h1)
        have hvsq : vnorm p1 * vnorm p1 = nsq p1 :=
          Real.mul_self_sqrt (Finset.sum_nonneg fun i _ => mul_self_nonneg _)
        have hexp : nsq ((2 * Real.pi / vnorm p1) • p1) =
            (2 * Real.pi / vnorm p1) ^ 2 * nsq p1 := by
          simp [nsq, Pi.smul_apply, smul_eq_mul, Fin.sum_univ_three]
          ring
        rw [hexp, ← hvsq]
        exact mul_pos (pow_pos (div_pos (by positivity) hv0) 2) (mul_pos hv0 hv0)
      · rw [if_neg h2]
        have hv0 : 0 < vnorm p2in := lt_of_lt_of_le (by norm_num) (not_lt.mp h2)
        have hvsq : vnorm p2in * vnorm p2in = nsq p2in :=
          Real.mul_self_sqrt (Finset.sum_nonneg fun i _ => mul_self_nonneg _)
        have hexp : nsq ((2 * Real.pi / vnorm p2in) • p2in) =
            (2 * Real.pi / vnorm p2in) ^ 2 * nsq p2in := by
          simp [nsq, Pi.smul_apply, smul_eq_mul, Fin.sum_univ_three]
          ring
        rw [hexp, ← hvsq]
        exact mul_pos (pow_pos (div_pos (by positivity) hv0) 2) (mul_pos hv0 hv0)
    subLoop p1 (alignN2 p1 p2in) hn (addLoop p1 (alignN2 p1 p2in) hn p2in)

/-- The add loop as the spec's amended wording describes it: keep stepping
while the candidate's distance to `p1` is at most the current distance (so an
exact tie keeps stepping), and stop at the first strict increase. -/
noncomputable def addLoopLe (p1 n2 : V3r) (hn : 0 < nsq n2) (p2 : V3r) : V3r :=
  if h : vnorm (p2 + n2 - p1) ≤ vnorm (p2 - p1) then addLoopLe p1 n2 hn (p2 + n2)
  else p2
termination_by Nat.ceil (dotp n2 (p1 - p2) / nsq n2 + 1)
decreasing_by
  have hnsq0 : (0:ℝ) ≤ nsq (p2 + n2 - p1) :=
    Finset.sum_nonneg fun i _ => mul_self_nonneg _
  have hnsq1 : (0:ℝ) ≤ nsq (p2 - p1) :=
    Finset.sum_nonneg fun i _ => mul_self_nonneg _
  have hsq : nsq (p2 + n2 - p1) ≤ nsq (p2 - p1) := by
    have h1 : vnorm (p2 + n2 - p1) ^ 2 ≤ vnorm (p2 - p1) ^ 2 :=
      pow_le_pow_left₀ (Real.sqrt_nonneg _) h 2
    rwa [vnorm, vnorm, Real.sq_sqrt hnsq0, Real.sq_sqrt hnsq1] at h1
  have hexp : nsq (p2 + n2 - p1) =
      nsq (p2 - p1) + 2 * dotp n2 (p2 - p1) + nsq n2 := by
    simp [nsq, dotp, Fin.sum_univ_three]
    ring
  have hneg : dotp n2 (p1 - p2) = - dotp n2 (p2 - p1) := by
    simp [dotp, Fin.sum_univ_three]
    ring
  have ht : 1/2 ≤ dotp n2 (p1 - p2) / nsq n2 := by
    rw [le_div_iff₀ hn, hneg]
    linarith
  have hstep : dotp n2 (p1 - (p2 + n2)) / nsq n2 + 1 =
      dotp n2 (p1 - p2) / nsq n2 := by
    have hd : dotp n2 (p1 - (p2 + n2)) = dotp n2 (p1 - p2) - nsq n2 := by
      simp [dotp, nsq, Fin.sum_univ_three]
      ring
    rw [hd]
    field_simp
  rw [hstep, Nat.ceil_add_one (by linarith)]
  exact Nat.lt_succ_self _

/-- The subtract loop in the amended wording: keep stepping while the distance
does not strictly increase. -/
noncomputable def subLoopLe (p1 n2 : V3r) (hn : 0 < nsq n2) (p2 : V3r) : V3r :=
  if h : vnorm (p2 - n2 - p1) ≤ vnorm (p2 - p1) then subLoopLe p1 n2 hn (p2 - n2)
  else p2
termination_by Nat.ceil (dotp n2 (p2 - p1) / nsq n2 + 1)
decreasing_by
  have hnsq0 : (0:ℝ) ≤ nsq (p2 - n2 - p1) :=
    Finset.sum_nonneg fun i _ => mul_self_nonneg _
  have hnsq1 : (0:ℝ) ≤ nsq (p2 - p1) :=
    Finset.sum_nonneg fun i _ => mul_self_nonneg _
  have hsq : nsq (p2 - n2 - p1) ≤ nsq (p2 - p1) := by
    have h1 : vnorm (p2 - n2 - p1) ^ 2 ≤ vnorm (p2 - p1) ^ 2 :=
      pow_le_pow_left₀ (Real.sqrt_nonneg _) h 2
    rwa [vnorm, vnorm, Real.sq_sqrt hnsq0, Real.sq_sqrt hnsq1] at h1
  have hexp : nsq (p2 - n2 - p1) =
      nsq (p2 - p1) - 2 * dotp n2 (p2 - p1) + nsq n2 := by
    simp [nsq, dotp, Fin.sum_univ_three]
    ring
  have ht : 1/2 ≤ dotp n2 (p2 - p1) / nsq n2 := by
    rw [le_div_iff₀ hn]
    linarith
  have hstep : dotp n2 (p2 - n2 - p1) / nsq n2 + 1 =
      dotp n2 (p2 - p1) / nsq n2 := by
    have hd : dotp n2 (p2 - n2 - p1) = dotp n2 (p2 - p1) - nsq n2 := by
      simp [dotp, nsq, Fin.sum_univ_three]
      ring
    rw [hd]
    field_simp
  rw [hstep, Nat.ceil_add_one (by linarith)]
  exact Nat.lt_succ_self _

/-- `align_angle_axis_vectors` as described by the amended wording of claim C6:
identical threshold handling and step vector, but with the loops phrased as
"continue while the distance does not strictly increase". -/
noncomputable def alignAmended (p1 p2in : V3r) : V3r :=
  if h : vnorm p2in < 1 / 1000000 ∧ vnorm p1 < 1 / 1000000 then p2in
  else
    have hn : 0 < nsq (alignN2 p1 p2in) := by
      rw [alignN2]
      by_cases h2 : vnorm p2in < 1 / 1000000
      · rw [if_pos h2]
        have h1 : ¬ vnorm p1 < 1 / 1000000 := fun hh => h ⟨h2, hh⟩
        have hv0 : 0 < vnorm p1 := lt_of_lt_of_le (by norm_num) (not_lt.mp h1)
        have hvsq : vnorm p1 * vnorm p1 = nsq p1 :=
          Real.mul_self_sqrt (Finset.sum_nonneg fun i _ => mul_self_nonneg _)
        have hexp : nsq ((2 * Real.pi / vnorm p1) • p1) =
            (2 * Real.pi / vnorm p1) ^ 2 * nsq p1 := by
          simp [nsq, Pi.smul_apply, smul_eq_mul, Fin.sum_univ_three]
          ring
        rw [hexp, ← hvsq]
        exact mul_pos (pow_pos (div_pos (by positivity) hv0) 2) (mul_pos hv0 hv0)
      · rw [if_neg h2]
        have hv0 : 0 < vnorm p2in := lt_of_lt_of_le (by norm_num) (not_lt.mp h2)
        have hvsq : vnorm p2in * vnorm p2in = nsq p2in :=
          Real.mul_self_sqrt (Finset.sum_nonneg fun i _ => mul_self_nonneg _)
        have hexp : nsq ((2 * Real.pi / vnorm p2in) • p2in) =
            (2 * Real.pi / vnorm p2in) ^ 2 * nsq p2in := by
          simp [nsq, Pi.smul_apply, smul_eq_mul, Fin.sum_univ_three]
          ring
        rw [hexp, ← hvsq]
        exact mul_pos (pow_pos (div_pos (by positivity) hv0) 2) (mul_pos hv0 hv0)
    subLoopLe p1 (alignN2 p1 p2in) hn (addLoopLe p1 (alignN2 p1 p2in) hn p2in)

/-- The real vector `(a, 0, 0)`: all concrete alignment counterexamples live on
the first coordinate axis. -/
def axv (a : ℝ) : V3r := fun i => if (i : ℕ) = 0 then a else 0

/-- The zero vector (an angle-axis identity rotation). -/
def zv : V3r := fun _ => 0

/-- A sample rotation algebra for witnesses: identity rotation matrix,
identity-like derivative triple, zero angle-axis, composition by addition. -/
def sampleRA : RotationAlgebra where
  aa_to_rot_mat := fun _ => 1
  rot_mat_derivatives := fun _ => (1, 1, 1, 1)
  rot_mat_to_aa := fun _ _ => 0
  rotate_aa := fun p dp => p + dp

/-- A sample rigid fragment with a single body-frame atom at `(1, 2, 3)`. -/
def sampleFrag : RigidFragment := ⟨[![1, 2, 3]]⟩

/-- A sample topology: one single-atom site and one non-rigid atom. -/
def sampleTopoNR : RBTopology := ⟨[sampleFrag], 1⟩

/-- A sample topology: one single-atom site, no non-rigid atoms. -/
def sampleTopo : RBTopology := ⟨[sampleFrag], 0⟩

/-- A sample 3×3 matrix (twice the identity) whose action visibly mutates the
center block. -/
def sampleMx : M3q := fun i j => if i = j then 2 else 0

/-- Applying a list sum of vectors at a component: sums commute with
evaluation. -/
theorem list_sum_apply (k : Fin 3) :
    ∀ l : List V3q, l.sum k = (l.map fun r => r k).sum := by
  intro l
  induction l with
  | nil => simp
  | cons a l ih => simp [ih]

/-- Unfolding the rotation-gradient accumulator of `transform_grad`: the fold
starting from any vector adds the per-atom contributions. -/
theorem foldl_rot_apply (RA : RotationAlgebra) (p : V3q) :
    ∀ (az : List (V3q × V3q)) (v : V3q) (m : Fin 3),
      (az.foldl
        (fun acc aq m => acc m + ∑ i, ∑ j, aq.1 i * derivMat RA p m i j * aq.2 j)
        v) m
      = v m + (az.map fun aq => ∑ i, ∑ j, aq.1 i * derivMat RA p m i j * aq.2 j).sum := by
  intro az
  induction az with
  | nil => intro v m; simp
  | cons a az ih =>
    intro v m
    simp only [List.foldl_cons, List.map_cons, List.sum_cons]
    rw [ih]
    ring

/-- A mapped sum over a zip of equal-length lists as an indexed range sum. -/
theorem zip_map_sum (F : V3q → V3q → ℚ) :
    ∀ l1 l2 : List V3q, l1.length = l2.length →
      ((List.zip l1 l2).map fun ab => F ab.1 ab.2).sum
        = ∑ a ∈ Finset.range l1.length, F (l1.getD a 0) (l2.getD a 0) := by
  intro l1
  induction l1 with
  | nil => intro l2 h; simp
  | cons x l1 ih =>
    intro l2 h
    cases l2 with
    | nil => simp at h
    | cons y l2 =>
      simp only [List.zip_cons_cons, List.map_cons, List.sum_cons, List.length_cons]
      rw [Finset.sum_range_succ']
      simp only [List.getD_cons_succ, List.getD_cons_zero]
      rw [ih l2 (by simpa using h)]
      ring

/-- C1: `RigidFragment::to_atomistic(center, rotation)` returns a fresh array
with one 3-block per body-frame atom, whose `i`-th block is
`center + R(rotation)·qᵢ`, the contraction running over the rotation matrix's
second index (`Matrix.mulVec`); being a pure function of its inputs in this
model, it has no side effects. -/
theorem claim1_rigid_fragment_to_atomistic (RA : RotationAlgebra)
    (f : RigidFragment) (com p : V3q) (i : ℕ) (hi : i < f.natoms) :
    (f.to_atomistic RA com p).length = f.natoms ∧
    (f.to_atomistic RA com p).getD i 0 =
      com + (RA.aa_to_rot_mat p).mulVec (f.atom_positions.getD i 0) := by
  have hlen : (f.to_atomistic RA com p).length = f.natoms := by
    simp [RigidFragment.to_atomistic, RigidFragment.natoms]
  refine ⟨hlen, ?_⟩
  have hi1 : i < (f.to_atomistic RA com p).length := by rw [hlen]; exact hi
  have hi2 : i < f.atom_positions.length := hi
  rw [List.getD_eq_getElem _ _ hi1, List.getD_eq_getElem _ _ hi2]
  unfold RigidFragment.to_atomistic
  rw [List.getElem_map]
  funext j
  simp [Matrix.mulVec, Matrix.dotProduct, Fin.sum_univ_three]

/-- Witness for C1: a one-atom fragment at the identity rotation algebra. -/
theorem claim1_witness :
    0 < sampleFrag.natoms ∧
    (sampleFrag.to_atomistic sampleRA 0 0).getD 0 0 =
      0 + (sampleRA.aa_to_rot_mat 0).mulVec (sampleFrag.atom_positions.getD 0 0) :=
  ⟨by decide,
   (claim1_rigid_fragment_to_atomistic sampleRA sampleFrag 0 0 0 (by decide)).2⟩

/-- C2: `RigidFragment::transform_grad` produces the summed per-atom gradient
as the center gradient, and, for each angle-axis component `m`, the triple sum
`Σ_atom Σ_i Σ_j g(atom,i) · drm_m(i,j) · q(atom,j)` as the rotation gradient,
accumulated from an initial zero. -/
theorem claim2_transform_grad (RA : RotationAlgebra) (f : RigidFragment)
    (p : V3q) (g : List V3q) (h : g.length = f.natoms) :
    (f.transform_grad RA p g).1 = g.sum ∧
    ∀ m, (f.transform_grad RA p g).2 m =
      ∑ a ∈ Finset.range f.natoms, ∑ i, ∑ j,
        g.getD a 0 i * derivMat RA p m i j * f.atom_positions.getD a 0 j := by
  constructor
  · funext k
    rw [list_sum_apply k g]
    rfl
  · intro m
    show (List.zip g f.atom_positions).foldl _ (fun _ => (0:ℚ)) m = _
    rw [foldl_rot_apply RA p (List.zip g f.atom_positions) (fun _ => 0) m]
    rw [zip_map_sum (fun u v => ∑ i, ∑ j, u i * derivMat RA p m i j * v j) g
      f.atom_positions (by rw [h]; rfl)]
    rw [h]
    ring

/-- Witness for C2 at a one-atom fragment and a concrete gradient row. -/
theorem claim2_witness :
    ([![1, 0, 0]] : List V3q).length = sampleFrag.natoms ∧
    (sampleFrag.transform_grad sampleRA 0 [![1, 0, 0]]).1 =
      ([![1, 0, 0]] : List V3q).sum :=
  ⟨by decide,
   (claim2_transform_grad sampleRA sampleFrag 0 [![1, 0, 0]] (by decide)).1⟩

/-- C4: `RBTopology::transform_gradient` fails exactly when one of the three
size preconditions is violated, and on failure the output buffer `rbgrad` is
returned untouched (the checks precede every write). -/
theorem claim4_transform_gradient_errors (RA : RotationAlgebra) (t : RBTopology)
    (rbcoords grad rbgrad : List ℚ) :
    ((t.transform_gradient RA rbcoords grad rbgrad).2.isSome ↔
      (rbcoords.length ≠ t.nrigid * 6 ∨ grad.length ≠ t.natoms_total * 3 ∨
        rbgrad.length ≠ rbcoords.length)) ∧
    ((rbcoords.length ≠ t.nrigid * 6 ∨ grad.length ≠ t.natoms_total * 3 ∨
        rbgrad.length ≠ rbcoords.length) →
      (t.transform_gradient RA rbcoords grad rbgrad).1 = rbgrad) := by
  unfold RBTopology.transform_gradient
  by_cases h1 : rbcoords.length = t.nrigid * 6
  · by_cases h2 : grad.length = t.natoms_total * 3
    · by_cases h3 : rbgrad.length = rbcoords.length
      · rw [if_neg (not_not_intro h1), if_neg (not_not_intro h2),
          if_neg (not_not_intro h3)]
        simp [h1, h2, h3]
      · rw [if_neg (not_not_intro h1), if_neg (not_not_intro h2), if_pos h3]
        simp [h3]
    · rw [if_neg (not_not_intro h1), if_pos h2]
      simp [h2]
  · rw [if_pos h1]
    simp [h1]

/-- Witness for C4: a wrong-sized output buffer makes the call fail and leaves
the buffer unchanged. -/
theorem claim4_witness :
    ([] : List ℚ).length ≠ ([1, 2, 3, 4, 5, 6] : List ℚ).length ∧
    (sampleTopo.transform_gradient sampleRA [1, 2, 3, 4, 5, 6] [1, 2, 3] []).1 = [] :=
  ⟨by decide,
   (claim4_transform_gradient_errors sampleRA sampleTopo [1, 2, 3, 4, 5, 6]
      [1, 2, 3] []).2 (Or.inr (Or.inr (by decide)))⟩

/-- Unfolding `TransformAACluster::rotate` past the adaptor's size
validation. -/
theorem rotate_unfold (RA : RotationAlgebra) (t : RBTopology) (x : List ℚ)
    (mx : M3q)
    (hx : ¬ x.length < 6 * t.nrigid + 3 * t.number_of_non_rigid_atoms) :
    TransformAACluster.rotate RA t x mx =
      (if 0 < t.nrigid then
        flat3 ((List.range t.nrigid).map fun i j =>
            ∑ k, vecAt (get_rb_positions t.nrigid x) i k * mx.transpose k j) ++
        flat3 ((List.range t.nrigid).map fun i =>
            RA.rotate_aa (vecAt (get_rb_rotations t.nrigid x) i)
              (RA.rot_mat_to_aa mx)) ++
        x.drop (6 * t.nrigid)
      else x,
      if 0 < t.number_of_non_rigid_atoms then
        some "non-rigid atoms is not yet supported"
      else none) := by
  unfold TransformAACluster.rotate
  rw [if_neg hx]
  by_cases hc : 0 < t.number_of_non_rigid_atoms
  · simp [hc]
  · simp [hc]

/-- C9: on a configuration of the topology's full size, `rotate` on a topology
with non-rigid atoms throws the unsupported-operation runtime error instead of
silently skipping them (a shorter array fails the adaptor's size validation
first, with a different, invalid-argument error). -/
theorem claim9_rotate_nonrigid_error (RA : RotationAlgebra) (t : RBTopology)
    (x : List ℚ) (mx : M3q)
    (hx : x.length = 6 * t.nrigid + 3 * t.number_of_non_rigid_atoms)
    (h : 0 < t.number_of_non_rigid_atoms) :
    (TransformAACluster.rotate RA t x mx).2 =
      some "non-rigid atoms is not yet supported" := by
  rw [rotate_unfold RA t x mx (by omega)]
  simp [h]

/-- Witness for C9 at a topology with one site and one non-rigid atom, on a
full-length (9-entry) configuration. -/
theorem claim9_witness :
    ([1, 0, 0, 0, 0, 0, 0, 0, 0] : List ℚ).length
      = 6 * sampleTopoNR.nrigid + 3 * sampleTopoNR.number_of_non_rigid_atoms ∧
    0 < sampleTopoNR.number_of_non_rigid_atoms ∧
    (TransformAACluster.rotate sampleRA sampleTopoNR
        [1, 0, 0, 0, 0, 0, 0, 0, 0] sampleMx).2 =
      some "non-rigid atoms is not yet supported" :=
  ⟨by decide, by decide,
   claim9_rotate_nonrigid_error sampleRA sampleTopoNR
     [1, 0, 0, 0, 0, 0, 0, 0, 0] sampleMx (by decide) (by decide)⟩

/-- C10: when both rigid sites and non-rigid atoms are present and the
configuration has the topology's full size (so the adaptor's size validation
passes), `rotate` first overwrites the rigid-body blocks of `x` exactly as the
fully supported (`non_rigid = 0`) call would, and only then reports the
unsupported-operation error: the failure is not atomic. -/
theorem claim10_rotate_mutation_before_error (RA : RotationAlgebra)
    (t : RBTopology) (x : List ℚ) (mx : M3q) (h1 : 0 < t.nrigid)
    (h2 : 0 < t.number_of_non_rigid_atoms)
    (hx : x.length = 6 * t.nrigid + 3 * t.number_of_non_rigid_atoms) :
    (TransformAACluster.rotate RA t x mx).1 =
      (TransformAACluster.rotate RA ⟨t.sites, 0⟩ x mx).1 ∧
    (TransformAACluster.rotate RA t x mx).2 =
      some "non-rigid atoms is not yet supported" ∧
    (TransformAACluster.rotate RA ⟨t.sites, 0⟩ x mx).2 = none := by
  have hc1 : ¬ x.length < 6 * t.nrigid + 3 * t.number_of_non_rigid_atoms := by
    omega
  have hc2 : ¬ x.length < 6 * RBTopology.nrigid ⟨t.sites, 0⟩
      + 3 * RBTopology.number_of_non_rigid_atoms ⟨t.sites, 0⟩ := by
    show ¬ x.length < 6 * t.sites.length + 3 * 0
    have hn : t.nrigid = t.sites.length := rfl
    omega
  rw [rotate_unfold RA t x mx hc1, rotate_unfold RA ⟨t.sites, 0⟩ x mx hc2]
  refine ⟨?_, ?_, ?_⟩
  · rfl
  · simp [h2]
  · simp

/-- Witness for C10: one site, one non-rigid atom, the doubling matrix and a
full-length configuration; the buffer is visibly mutated before the error is
reported. -/
theorem claim10_witness :
    0 < sampleTopoNR.nrigid ∧ 0 < sampleTopoNR.number_of_non_rigid_atoms ∧
    ([1, 0, 0, 0, 0, 0, 0, 0, 0] : List ℚ).length
      = 6 * sampleTopoNR.nrigid + 3 * sampleTopoNR.number_of_non_rigid_atoms ∧
    (TransformAACluster.rotate sampleRA sampleTopoNR
        [1, 0, 0, 0, 0, 0, 0, 0, 0] sampleMx).1 ≠
      [1, 0, 0, 0, 0, 0, 0, 0, 0] ∧
    (TransformAACluster.rotate sampleRA sampleTopoNR
        [1, 0, 0, 0, 0, 0, 0, 0, 0] sampleMx).2 =
      some "non-rigid atoms is not yet supported" :=
  ⟨by decide, by decide, by decide, by with_unfolding_all decide,
   (claim10_rotate_mutation_before_error sampleRA sampleTopoNR
      [1, 0, 0, 0, 0, 0, 0, 0, 0] sampleMx (by decide) (by decide)
      (by decide)).2.1⟩

/-- The serialised length of a list of 3-blocks. -/
theorem flat3_length : ∀ L : List V3q, (flat3 L).length = 3 * L.length := by
  intro L
  induction L with
  | nil => simp [flat3]
  | cons v L ih =>
    show (v 0 :: v 1 :: v 2 :: flat3 L).length = 3 * (L.length + 1)
    simp [ih]
    omega

/-- `to_atomistic` produces one block per body-frame atom. -/
theorem to_atomistic_len (RA : RotationAlgebra) (f : RigidFragment) (com p : V3q) :
    (f.to_atomistic RA com p).length = f.natoms := by
  simp [RigidFragment.to_atomistic, RigidFragment.natoms]

/-- Reading inside the taken prefix of a list. -/
theorem getD_take_lt (l : List ℚ) (m r : ℕ) (h : r < m) :
    (l.take m).getD r 0 = l.getD r 0 := by
  simp [List.getD_eq_getElem?_getD, List.getElem?_take, h]

/-- Reading a dropped list shifts the index. -/
theorem getD_drop_add (l : List ℚ) (m r : ℕ) :
    (l.drop m).getD r 0 = l.getD (m + r) 0 := by
  simp [List.getD_eq_getElem?_getD, List.getElem?_drop]

/-- In-range read of a map over `List.range`. -/
theorem getD_range_map {α : Type} (F : ℕ → α) (d : α) (n i : ℕ) (h : i < n) :
    ((List.range n).map F).getD i d = F i := by
  have h1 : i < ((List.range n).map F).length := by simpa using h
  rw [List.getD_eq_getElem _ _ h1, List.getElem_map, List.getElem_range]

/-- A range-indexed sum of `getD` reads equals the mapped list sum. -/
theorem sum_range_getD {α : Type} (F : α → ℕ) (d : α) :
    ∀ l : List α,
      ((List.range l.length).map fun i => F (l.getD i d)).sum = (l.map F).sum := by
  intro l
  induction l with
  | nil => simp
  | cons a l ih =>
    rw [List.length_cons, List.range_succ_eq_map, List.map_cons, List.map_map,
      List.sum_cons, List.map_cons, List.sum_cons]
    simp only [Function.comp_def, Nat.succ_eq_add_one, List.getD_cons_zero,
      List.getD_cons_succ]
    rw [ih]

/-- Factoring a constant multiplier out of a mapped list sum. -/
theorem sum_map_mul3 {α : Type} (F : α → ℕ) :
    ∀ l : List α, (l.map fun s => 3 * F s).sum = 3 * (l.map F).sum := by
  intro l
  induction l with
  | nil => simp
  | cons a l ih => simp [ih, Nat.mul_add]

/-- The concatenated site blocks have length `3 · Σ natoms`. -/
theorem siteBlocks_flatten_length (RA : RotationAlgebra) (t : RBTopology)
    (rbcoords : List ℚ) :
    (t.siteBlocks RA rbcoords).flatten.length
      = 3 * (t.sites.map RigidFragment.natoms).sum := by
  rw [List.length_flatten, RBTopology.siteBlocks, List.map_map]
  have h1 : (List.length ∘ fun isite =>
      flat3 ((t.sites.getD isite ⟨[]⟩).to_atomistic RA
        (vecAt (get_rb_positions t.nrigid rbcoords) isite)
        (vecAt (get_rb_rotations t.nrigid rbcoords) isite)))
      = fun isite => 3 * (t.sites.getD isite ⟨[]⟩).natoms := by
    funext i
    simp [Function.comp, flat3_length, to_atomistic_len]
  rw [h1]
  show ((List.range t.sites.length).map
    fun i => 3 * RigidFragment.natoms (t.sites.getD i ⟨[]⟩)).sum = _
  rw [sum_range_getD (fun s => 3 * RigidFragment.natoms s) ⟨[]⟩ t.sites]
  exact sum_map_mul3 RigidFragment.natoms t.sites

/-- The adaptor's center sub-view reads the global array directly. -/
theorem vecAt_rb_positions (x : List ℚ) (n i : ℕ) (h : i < n) :
    vecAt (get_rb_positions n x) i = fun j : Fin 3 => x.getD (3 * i + (j : ℕ)) 0 := by
  funext j
  have hj := j.isLt
  show (x.take (3 * n)).getD (3 * i + (j : ℕ)) 0 = x.getD (3 * i + (j : ℕ)) 0
  exact getD_take_lt _ _ _ (by omega)

/-- The adaptor's rotation sub-view reads the global array at offset
`3·nrigid`. -/
theorem vecAt_rb_rotations (x : List ℚ) (n i : ℕ) (h : i < n) :
    vecAt (get_rb_rotations n x) i
      = fun j : Fin 3 => x.getD (3 * n + 3 * i + (j : ℕ)) 0 := by
  funext j
  have hj := j.isLt
  show ((x.drop (3 * n)).take (3 * n)).getD (3 * i + (j : ℕ)) 0 = _
  rw [getD_take_lt _ _ _ (by omega), getD_drop_add]
  congr 1
  omega

/-- In-range blocks of a serialised list of 3-blocks (with anything appended). -/
theorem vecAt_flat3_append (rest : List ℚ) :
    ∀ (L : List V3q) (i : ℕ), i < L.length →
      vecAt (flat3 L ++ rest) i = L.getD i 0 := by
  intro L
  induction L with
  | nil => intro i hi; cases hi
  | cons v L ih =>
    intro i hi
    cases i with
    | zero =>
      funext j
      fin_cases j <;> rfl
    | succ i =>
      funext j
      have h1 : 3 * (i + 1) + (j : ℕ) = 3 * i + (j : ℕ) + 1 + 1 + 1 := by omega
      show (v 0 :: v 1 :: v 2 :: (flat3 L ++ rest)).getD (3 * (i + 1) + (j : ℕ)) 0
        = ((v :: L).getD (i + 1) 0) j
      rw [h1, List.getD_cons_succ, List.getD_cons_succ, List.getD_cons_succ,
        List.getD_cons_succ]
      have hi2 : i < L.length := by
        simp only [List.length_cons] at hi
        omega
      exact congrFun (ih i hi2) j

/-- Blocks past a serialised list of 3-blocks land in the appended tail. -/
theorem vecAt_flat3_append_right (L : List V3q) (rest : List ℚ) (n i : ℕ)
    (hL : L.length = n) :
    vecAt (flat3 L ++ rest) (n + i) = vecAt rest i := by
  funext j
  show (flat3 L ++ rest).getD (3 * (n + i) + (j : ℕ)) 0
    = rest.getD (3 * i + (j : ℕ)) 0
  rw [List.getD_append_right _ _ _ _ (by rw [flat3_length, hL]; omega)]
  congr 1
  rw [flat3_length, hL]
  omega

/-- C3 (amended): with a well-sized input, `RBTopology::to_atomistic` returns a
fresh array of length `3·natoms_total` whose leading entries are the site-major
concatenation of the per-site `to_atomistic` results — the whole array when
there are no non-rigid atoms; a wrong-sized input fails with the
invalid-argument error; and site `i`'s block is computed from the center slot
`[3i, 3i+3)` and the rotation slot `[3·nrigid + 3i, 3·nrigid + 3i + 3)` of
`rbcoords`. -/
theorem claim3_topology_to_atomistic (RA : RotationAlgebra) (t : RBTopology)
    (rbcoords : List ℚ) :
    (rbcoords.length = t.nrigid * 6 →
      ∃ l, t.to_atomistic RA rbcoords = Except.ok l ∧
        l.length = 3 * t.natoms_total ∧
        l.take (t.siteBlocks RA rbcoords).flatten.length
          = (t.siteBlocks RA rbcoords).flatten ∧
        (t.number_of_non_rigid_atoms = 0 →
          l = (t.siteBlocks RA rbcoords).flatten)) ∧
    (rbcoords.length ≠ t.nrigid * 6 →
      t.to_atomistic RA rbcoords = Except.error "rbcoords has the wrong size") ∧
    (∀ i, i < t.nrigid →
      (t.siteBlocks RA rbcoords).getD i [] =
        flat3 ((t.sites.getD i ⟨[]⟩).to_atomistic RA
          (fun j : Fin 3 => rbcoords.getD (3 * i + (j : ℕ)) 0)
          (fun j : Fin 3 => rbcoords.getD (3 * t.nrigid + 3 * i + (j : ℕ)) 0))) := by
  have hsb := siteBlocks_flatten_length RA t rbcoords
  refine ⟨?_, ?_, ?_⟩
  · intro h
    refine ⟨(t.siteBlocks RA rbcoords).flatten ++
      List.replicate
        (3 * t.natoms_total - (t.siteBlocks RA rbcoords).flatten.length) 0,
      ?_, ?_, ?_, ?_⟩
    · unfold RBTopology.to_atomistic
      rw [if_neg (not_not_intro h)]
    · rw [List.length_append, List.length_replicate, hsb]
      unfold RBTopology.natoms_total
      omega
    · exact List.take_left _ _
    · intro h0
      have hpad : 3 * t.natoms_total - (t.siteBlocks RA rbcoords).flatten.length = 0 := by
        rw [hsb]
        unfold RBTopology.natoms_total
        omega
      rw [hpad, List.replicate_zero, List.append_nil]
  · intro h
    unfold RBTopology.to_atomistic
    rw [if_pos h]
  · intro i hi
    rw [RBTopology.siteBlocks, getD_range_map _ _ _ _ hi,
      vecAt_rb_positions _ _ _ hi, vecAt_rb_rotations _ _ _ hi]

/-- C3 counterexample: with one non-rigid atom the returned array (length
`3·natoms_total = 6`) is not the site-major concatenation (length `3`), so the
claim's unconditional equality fails. -/
theorem claim3_counterexample :
    sampleTopoNR.to_atomistic sampleRA [0, 0, 0, 0, 0, 0]
      = Except.ok [1, 2, 3, 0, 0, 0] ∧
    ([1, 2, 3, 0, 0, 0] : List ℚ)
      ≠ (sampleTopoNR.siteBlocks sampleRA [0, 0, 0, 0, 0, 0]).flatten := by
  constructor
  · with_unfolding_all rfl
  · with_unfolding_all decide

/-- Witness for C3 at a one-site topology with no non-rigid atoms. -/
theorem claim3_witness :
    ([0, 0, 0, 0, 0, 0] : List ℚ).length = sampleTopo.nrigid * 6 ∧
    (∃ l, sampleTopo.to_atomistic sampleRA [0, 0, 0, 0, 0, 0] = Except.ok l ∧
      l.length = 3 * sampleTopo.natoms_total ∧
      l.take (sampleTopo.siteBlocks sampleRA [0, 0, 0, 0, 0, 0]).flatten.length
        = (sampleTopo.siteBlocks sampleRA [0, 0, 0, 0, 0, 0]).flatten ∧
      (sampleTopo.number_of_non_rigid_atoms = 0 →
        l = (sampleTopo.siteBlocks sampleRA [0, 0, 0, 0, 0, 0]).flatten)) :=
  ⟨by decide,
   (claim3_topology_to_atomistic sampleRA sampleTopo [0, 0, 0, 0, 0, 0]).1
     (by decide)⟩

/-- C8: on a topology with rigid sites only, `rotate` succeeds, replaces each
center row by that row right-multiplied by the transpose of the rotation
matrix, and replaces each site's angle-axis vector by the rotation-algebra
composition with `rot_mat_to_aa(mx)` — not by vector addition. -/
theorem claim8_rotate_rigid (RA : RotationAlgebra) (t : RBTopology) (x : List ℚ)
    (mx : M3q) (h1 : 0 < t.nrigid) (h0 : t.number_of_non_rigid_atoms = 0)
    (hx : x.length = 6 * t.nrigid) :
    (TransformAACluster.rotate RA t x mx).2 = none ∧
    ∀ i, i < t.nrigid →
      vecAt (TransformAACluster.rotate RA t x mx).1 i
          = Matrix.vecMul (vecAt x i) mx.transpose ∧
      vecAt (TransformAACluster.rotate RA t x mx).1 (t.nrigid + i)
          = RA.rotate_aa (vecAt x (t.nrigid + i)) (RA.rot_mat_to_aa mx) := by
  have hres : TransformAACluster.rotate RA t x mx =
      (flat3 ((List.range t.nrigid).map fun i j =>
          ∑ k, vecAt (get_rb_positions t.nrigid x) i k * mx.transpose k j) ++
       flat3 ((List.range t.nrigid).map fun i =>
          RA.rotate_aa (vecAt (get_rb_rotations t.nrigid x) i)
            (RA.rot_mat_to_aa mx)) ++
       x.drop (6 * t.nrigid), none) := by
    have hc : ¬ x.length < 6 * t.nrigid + 3 * t.number_of_non_rigid_atoms := by
      rw [h0, hx]
      omega
    rw [rotate_unfold RA t x mx hc, h0]
    simp [h1]
  have hpos : ∀ i, i < t.nrigid →
      vecAt (get_rb_positions t.nrigid x) i = vecAt x i := by
    intro i hi
    rw [vecAt_rb_positions _ _ _ hi]
    funext j
    rfl
  have hrot : ∀ i, i < t.nrigid →
      vecAt (get_rb_rotations t.nrigid x) i = vecAt x (t.nrigid + i) := by
    intro i hi
    rw [vecAt_rb_rotations _ _ _ hi]
    funext j
    show x.getD (3 * t.nrigid + 3 * i + (j : ℕ)) 0
      = x.getD (3 * (t.nrigid + i) + (j : ℕ)) 0
    congr 1
    omega
  refine ⟨by rw [hres], ?_⟩
  intro i hi
  constructor
  · rw [hres]
    show vecAt (_ ++ _ ++ _) i = _
    rw [List.append_assoc,
      vecAt_flat3_append _ _ _ (by simpa using hi),
      getD_range_map _ _ _ _ hi, hpos i hi]
    funext j
    simp [Matrix.vecMul, Matrix.dotProduct]
  · rw [hres]
    show vecAt (_ ++ _ ++ _) (t.nrigid + i) = _
    rw [List.append_assoc,
      vecAt_flat3_append_right _ _ _ _ (by simp),
      vecAt_flat3_append _ _ _ (by simpa using hi),
      getD_range_map _ _ _ _ hi, hrot i hi]

/-- Witness for C8: one site, doubling matrix, concrete coordinates. -/
theorem claim8_witness :
    0 < sampleTopo.nrigid ∧ sampleTopo.number_of_non_rigid_atoms = 0 ∧
    ([1, 0, 0, 0, 0, 0] : List ℚ).length = 6 * sampleTopo.nrigid ∧
    vecAt (TransformAACluster.rotate sampleRA sampleTopo
        [1, 0, 0, 0, 0, 0] sampleMx).1 0
      = Matrix.vecMul (vecAt [1, 0, 0, 0, 0, 0] 0) sampleMx.transpose :=
  ⟨by decide, by decide, by decide,
   ((claim8_rotate_rigid sampleRA sampleTopo [1, 0, 0, 0, 0, 0] sampleMx
      (by decide) (by decide) (by decide)).2 0 (by decide)).1⟩

/-- Squared norms are nonnegative. -/
theorem nsq_nonneg (v : V3r) : 0 ≤ nsq v :=
  Finset.sum_nonneg fun _ _ => mul_self_nonneg _

/-- The norm of a scalar multiple. -/
theorem vnorm_smul (c : ℝ) (v : V3r) : vnorm (c • v) = |c| * vnorm v := by
  have h1 : nsq (c • v) = c ^ 2 * nsq v := by
    simp [nsq, Pi.smul_apply, smul_eq_mul, Fin.sum_univ_three]
    ring
  rw [vnorm, h1, Real.sqrt_mul (sq_nonneg c), Real.sqrt_sq_eq_abs, vnorm]

/-- The squared norm of an axis vector. -/
theorem nsq_axv (a : ℝ) : nsq (axv a) = a * a := by
  rw [nsq, Fin.sum_univ_three]
  show a * a + 0 * 0 + 0 * 0 = a * a
  ring

/-- The norm of an axis vector. -/
theorem vnorm_axv (a : ℝ) : vnorm (axv a) = |a| := by
  rw [vnorm, nsq_axv, Real.sqrt_mul_self_eq_abs]

/-- The zero vector has norm zero. -/
theorem vnorm_zv : vnorm zv = 0 := by
  have h1 : nsq zv = 0 := by simp [nsq, zv]
  rw [vnorm, h1, Real.sqrt_zero]

/-- Subtracting the zero vector. -/
theorem sub_zv (v : V3r) : v - zv = v := by
  funext i
  simp [zv]

/-- Axis vectors add on the axis. -/
theorem axv_add_axv (a b : ℝ) : axv a + axv b = axv (a + b) := by
  funext i
  by_cases hc : (i : ℕ) = 0 <;> simp [axv, hc]

/-- Axis vectors subtract on the axis. -/
theorem axv_sub_axv (a b : ℝ) : axv a - axv b = axv (a - b) := by
  funext i
  by_cases hc : (i : ℕ) = 0 <;> simp [axv, hc]

/-- Axis vectors scale on the axis. -/
theorem smul_axv (c a : ℝ) : c • axv a = axv (c * a) := by
  funext i
  by_cases hc : (i : ℕ) = 0 <;> simp [axv, hc]

/-- `(π, 0, 0)` is not within the near-identity threshold. -/
theorem not_small_pi : ¬ vnorm (axv Real.pi) < 1 / 1000000 := by
  rw [vnorm_axv, abs_of_pos Real.pi_pos]
  intro h
  nlinarith [Real.pi_gt_three]

/-- `(−π, 0, 0)` is not within the near-identity threshold. -/
theorem not_small_negpi : ¬ vnorm (axv (-Real.pi)) < 1 / 1000000 := by
  rw [vnorm_axv, abs_neg, abs_of_pos Real.pi_pos]
  intro h
  nlinarith [Real.pi_gt_three]

/-- The periodicity step is non-degenerate whenever the early-return did not
trigger (the same fact the definition of `alignAngleAxisVectors` proves
inline). -/
theorem alignN2_pos (p1 p2 : V3r)
    (h : ¬ (vnorm p2 < 1 / 1000000 ∧ vnorm p1 < 1 / 1000000)) :
    0 < nsq (alignN2 p1 p2) := by
  rw [alignN2]
  by_cases h2 : vnorm p2 < 1 / 1000000
  · rw [if_pos h2]
    have h1 : ¬ vnorm p1 < 1 / 1000000 := fun hh => h ⟨h2, hh⟩
    have hv0 : 0 < vnorm p1 := lt_of_lt_of_le (by norm_num) (not_lt.mp h1)
    have hvsq : vnorm p1 * vnorm p1 = nsq p1 := Real.mul_self_sqrt (nsq_nonneg p1)
    have hexp : nsq ((2 * Real.pi / vnorm p1) • p1)
        = (2 * Real.pi / vnorm p1) ^ 2 * nsq p1 := by
      simp [nsq, Pi.smul_apply, smul_eq_mul, Fin.sum_univ_three]
      ring
    rw [hexp, ← hvsq]
    exact mul_pos (pow_pos (div_pos (by positivity) hv0) 2) (mul_pos hv0 hv0)
  · rw [if_neg h2]
    have hv0 : 0 < vnorm p2 := lt_of_lt_of_le (by norm_num) (not_lt.mp h2)
    have hvsq : vnorm p2 * vnorm p2 = nsq p2 := Real.mul_self_sqrt (nsq_nonneg p2)
    have hexp : nsq ((2 * Real.pi / vnorm p2) • p2)
        = (2 * Real.pi / vnorm p2) ^ 2 * nsq p2 := by
      simp [nsq, Pi.smul_apply, smul_eq_mul, Fin.sum_univ_three]
      ring
    rw [hexp, ← hvsq]
    exact mul_pos (pow_pos (div_pos (by positivity) hv0) 2) (mul_pos hv0 hv0)

/-- One-step unfolding: the add loop stops on a strict worsening. -/
theorem addLoop_stop (p1 n2 : V3r) (hn : 0 < nsq n2) (p2 : V3r)
    (h : vnorm (p2 + n2 - p1) > vnorm (p2 - p1)) :
    addLoop p1 n2 hn p2 = p2 := by
  rw [addLoop]
  exact dif_pos h

/-- One-step unfolding: the add loop accepts a non-worsening step. -/
theorem addLoop_go (p1 n2 : V3r) (hn : 0 < nsq n2) (p2 : V3r)
    (h : ¬ vnorm (p2 + n2 - p1) > vnorm (p2 - p1)) :
    addLoop p1 n2 hn p2 = addLoop p1 n2 hn (p2 + n2) := by
  rw [addLoop]
  exact dif_neg h

/-- One-step unfolding: the subtract loop stops on a strict worsening. -/
theorem subLoop_stop (p1 n2 : V3r) (hn : 0 < nsq n2) (p2 : V3r)
    (h : vnorm (p2 - n2 - p1) > vnorm (p2 - p1)) :
    subLoop p1 n2 hn p2 = p2 := by
  rw [subLoop]
  exact dif_pos h

/-- One-step unfolding: the subtract loop accepts a non-worsening step. -/
theorem subLoop_go (p1 n2 : V3r) (hn : 0 < nsq n2) (p2 : V3r)
    (h : ¬ vnorm (p2 - n2 - p1) > vnorm (p2 - p1)) :
    subLoop p1 n2 hn p2 = subLoop p1 n2 hn (p2 - n2) := by
  rw [subLoop]
  exact dif_neg h

/-- Unfolding `alignAngleAxisVectors` past the early return. -/
theorem align_unfold (p1 p2 : V3r)
    (h : ¬ (vnorm p2 < 1 / 1000000 ∧ vnorm p1 < 1 / 1000000))
    (hn : 0 < nsq (alignN2 p1 p2)) :
    alignAngleAxisVectors p1 p2
      = subLoop p1 (alignN2 p1 p2) hn (addLoop p1 (alignN2 p1 p2) hn p2) := by
  rw [alignAngleAxisVectors, dif_neg h]

/-- Unfolding `alignAmended` past the early return. -/
theorem alignAmended_unfold (p1 p2 : V3r)
    (h : ¬ (vnorm p2 < 1 / 1000000 ∧ vnorm p1 < 1 / 1000000))
    (hn : 0 < nsq (alignN2 p1 p2)) :
    alignAmended p1 p2
      = subLoopLe p1 (alignN2 p1 p2) hn (addLoopLe p1 (alignN2 p1 p2) hn p2) := by
  rw [alignAmended, dif_neg h]

/-- The two phrasings of the add loop agree. -/
theorem addLoop_eq_addLoopLe (p1 n2 : V3r) (hn : 0 < nsq n2) :
    ∀ p2, addLoop p1 n2 hn p2 = addLoopLe p1 n2 hn p2 := by
  intro p2
  induction p2 using addLoop.induct p1 n2 hn with
  | case1 p2 h =>
    rw [addLoop_stop _ _ _ _ h, addLoopLe, dif_neg (not_le.mpr h)]
  | case2 p2 h ih =>
    rw [addLoop_go _ _ _ _ h, addLoopLe, dif_pos (not_lt.mp h), ih]

/-- The two phrasings of the subtract loop agree. -/
theorem subLoop_eq_subLoopLe (p1 n2 : V3r) (hn : 0 < nsq n2) :
    ∀ p2, subLoop p1 n2 hn p2 = subLoopLe p1 n2 hn p2 := by
  intro p2
  induction p2 using subLoop.induct p1 n2 hn with
  | case1 p2 h =>
    rw [subLoop_stop _ _ _ _ h, subLoopLe, dif_neg (not_le.mpr h)]
  | case2 p2 h ih =>
    rw [subLoop_go _ _ _ _ h, subLoopLe, dif_pos (not_lt.mp h), ih]

/-- The add loop adds a natural multiple of the step and never increases the
distance to `p1`. -/
theorem addLoop_props (p1 n2 : V3r) (hn : 0 < nsq n2) :
    ∀ p2, (∃ a : ℕ, addLoop p1 n2 hn p2 = p2 + (a : ℝ) • n2) ∧
      vnorm (addLoop p1 n2 hn p2 - p1) ≤ vnorm (p2 - p1) := by
  intro p2
  induction p2 using addLoop.induct p1 n2 hn with
  | case1 p2 h =>
    refine ⟨⟨0, ?_⟩, ?_⟩
    · rw [addLoop_stop _ _ _ _ h]
      simp
    · rw [addLoop_stop _ _ _ _ h]
  | case2 p2 h ih =>
    obtain ⟨⟨a, ha⟩, hle⟩ := ih
    refine ⟨⟨a + 1, ?_⟩, ?_⟩
    · rw [addLoop_go _ _ _ _ h, ha]
      funext i
      push_cast
      simp only [Pi.add_apply, Pi.smul_apply, smul_eq_mul]
      ring
    · rw [addLoop_go _ _ _ _ h]
      exact le_trans hle (not_lt.mp h)

/-- The subtract loop subtracts a natural multiple of the step and never
increases the distance to `p1`. -/
theorem subLoop_props (p1 n2 : V3r) (hn : 0 < nsq n2) :
    ∀ p2, (∃ b : ℕ, subLoop p1 n2 hn p2 = p2 - (b : ℝ) • n2) ∧
      vnorm (subLoop p1 n2 hn p2 - p1) ≤ vnorm (p2 - p1) := by
  intro p2
  induction p2 using subLoop.induct p1 n2 hn with
  | case1 p2 h =>
    refine ⟨⟨0, ?_⟩, ?_⟩
    · rw [subLoop_stop _ _ _ _ h]
      simp
    · rw [subLoop_stop _ _ _ _ h]
  | case2 p2 h ih =>
    obtain ⟨⟨b, hb⟩, hle⟩ := ih
    refine ⟨⟨b + 1, ?_⟩, ?_⟩
    · rw [subLoop_go _ _ _ _ h, hb]
      funext i
      push_cast
      simp only [Pi.sub_apply, Pi.smul_apply, smul_eq_mul]
      ring
    · rw [subLoop_go _ _ _ _ h]
      exact le_trans hle (not_lt.mp h)

/-- The step vector at `p1 = 0`, `p2 = (π,0,0)`. -/
theorem alignN2_zv_pi : alignN2 zv (axv Real.pi) = axv (2 * Real.pi) := by
  rw [alignN2, if_neg not_small_pi, vnorm_axv, abs_of_pos Real.pi_pos, smul_axv]
  congr 1
  field_simp

/-- The step vector at `p1 = 0`, `p2 = (−π,0,0)`. -/
theorem alignN2_zv_negpi :
    alignN2 zv (axv (-Real.pi)) = axv (-(2 * Real.pi)) := by
  rw [alignN2, if_neg not_small_negpi, vnorm_axv, abs_neg,
    abs_of_pos Real.pi_pos, smul_axv]
  congr 1
  field_simp

/-- Running both loops from `(π,0,0)` against `p1 = 0` with step `(2π,0,0)`:
the first addition strictly worsens, the first subtraction ties (and is
accepted), the second subtraction strictly worsens. -/
theorem loops_eval_pi (n2 : V3r) (hn : 0 < nsq n2)
    (he : n2 = axv (2 * Real.pi)) :
    subLoop zv n2 hn (addLoop zv n2 hn (axv Real.pi)) = axv (-Real.pi) := by
  subst he
  have hpi := Real.pi_pos
  have e1 : axv Real.pi + axv (2 * Real.pi) - zv = axv (Real.pi + 2 * Real.pi) := by
    rw [axv_add_axv, sub_zv]
  have e2 : axv Real.pi - zv = axv Real.pi := sub_zv _
  have e3 : axv Real.pi - axv (2 * Real.pi) = axv (-Real.pi) := by
    rw [axv_sub_axv]
    congr 1
    ring
  have e4 : axv (-Real.pi) - zv = axv (-Real.pi) := sub_zv _
  have e5 : axv (-Real.pi) - axv (2 * Real.pi) - zv
      = axv (-(Real.pi + 2 * Real.pi)) := by
    rw [axv_sub_axv, sub_zv]
    congr 1
    ring
  have hadd : addLoop zv (axv (2 * Real.pi)) hn (axv Real.pi) = axv Real.pi := by
    apply addLoop_stop
    rw [e1, e2, vnorm_axv, vnorm_axv, abs_of_pos (by linarith), abs_of_pos hpi]
    linarith
  rw [hadd]
  have hgo : subLoop zv (axv (2 * Real.pi)) hn (axv Real.pi)
      = subLoop zv (axv (2 * Real.pi)) hn (axv Real.pi - axv (2 * Real.pi)) := by
    apply subLoop_go
    have hv : vnorm (axv Real.pi - axv (2 * Real.pi) - zv) = Real.pi := by
      rw [e3, e4, vnorm_axv, abs_neg, abs_of_pos hpi]
    rw [hv, e2, vnorm_axv, abs_of_pos hpi]
    exact lt_irrefl _
  rw [hgo, e3]
  apply subLoop_stop
  rw [e5, e4, vnorm_axv, vnorm_axv, abs_neg, abs_neg,
    abs_of_pos (by linarith), abs_of_pos hpi]
  linarith

/-- Running both loops from `(−π,0,0)` against `p1 = 0` with step `(−2π,0,0)`:
symmetric to `loops_eval_pi`, ending at `(π,0,0)`. -/
theorem loops_eval_negpi (n2 : V3r) (hn : 0 < nsq n2)
    (he : n2 = axv (-(2 * Real.pi))) :
    subLoop zv n2 hn (addLoop zv n2 hn (axv (-Real.pi))) = axv Real.pi := by
  subst he
  have hpi := Real.pi_pos
  have e1 : axv (-Real.pi) + axv (-(2 * Real.pi)) - zv
      = axv (-(Real.pi + 2 * Real.pi)) := by
    rw [axv_add_axv, sub_zv]
    congr 1
    ring
  have e2 : axv (-Real.pi) - zv = axv (-Real.pi) := sub_zv _
  have e3 : axv (-Real.pi) - axv (-(2 * Real.pi)) = axv Real.pi := by
    rw [axv_sub_axv]
    congr 1
    ring
  have e4 : axv Real.pi - zv = axv Real.pi := sub_zv _
  have e5 : axv Real.pi - axv (-(2 * Real.pi)) - zv
      = axv (Real.pi + 2 * Real.pi) := by
    rw [axv_sub_axv, sub_zv]
    congr 1
    ring
  have hadd : addLoop zv (axv (-(2 * Real.pi))) hn (axv (-Real.pi))
      = axv (-Real.pi) := by
    apply addLoop_stop
    rw [e1, e2, vnorm_axv, vnorm_axv, abs_neg, abs_neg,
      abs_of_pos (by linarith), abs_of_pos hpi]
    linarith
  rw [hadd]
  have hgo : subLoop zv (axv (-(2 * Real.pi))) hn (axv (-Real.pi))
      = subLoop zv (axv (-(2 * Real.pi))) hn
          (axv (-Real.pi) - axv (-(2 * Real.pi))) := by
    apply subLoop_go
    have hv : vnorm (axv (-Real.pi) - axv (-(2 * Real.pi)) - zv) = Real.pi := by
      rw [e3, sub_zv, vnorm_axv, abs_of_pos hpi]
    rw [hv, e2, vnorm_axv, abs_neg, abs_of_pos hpi]
    exact lt_irrefl _
  rw [hgo, e3]
  apply subLoop_stop
  rw [e5, e4, vnorm_axv, vnorm_axv, abs_of_pos (by linarith), abs_of_pos hpi]
  linarith

/-- Aligning `(π,0,0)` against the origin yields `(−π,0,0)`. -/
theorem align_eval_pi : alignAngleAxisVectors zv (axv Real.pi) = axv (-Real.pi) := by
  have h : ¬ (vnorm (axv Real.pi) < 1 / 1000000 ∧ vnorm zv < 1 / 1000000) :=
    fun hc => not_small_pi hc.1
  have hn := alignN2_pos zv (axv Real.pi) h
  rw [align_unfold zv (axv Real.pi) h hn]
  exact loops_eval_pi _ hn alignN2_zv_pi

/-- Aligning `(−π,0,0)` against the origin yields `(π,0,0)`. -/
theorem align_eval_negpi :
    alignAngleAxisVectors zv (axv (-Real.pi)) = axv Real.pi := by
  have h : ¬ (vnorm (axv (-Real.pi)) < 1 / 1000000 ∧ vnorm zv < 1 / 1000000) :=
    fun hc => not_small_negpi hc.1
  have hn := alignN2_pos zv (axv (-Real.pi)) h
  rw [align_unfold zv (axv (-Real.pi)) h hn]
  exact loops_eval_negpi _ hn alignN2_zv_negpi

/-- C5: if both inputs are below the `1e-6` near-identity threshold the input
`p2` is returned unchanged; if only `p2` is below it, the periodicity step is a
positive multiple of `p1` with norm `2π`; otherwise it is a positive multiple
of `p2` with norm `2π`. -/
theorem claim5_align_threshold_cases (p1 p2 : V3r) :
    (vnorm p2 < 1 / 1000000 → vnorm p1 < 1 / 1000000 →
      alignAngleAxisVectors p1 p2 = p2) ∧
    (vnorm p2 < 1 / 1000000 → ¬ vnorm p1 < 1 / 1000000 →
      vnorm (alignN2 p1 p2) = 2 * Real.pi ∧
      ∃ c : ℝ, 0 < c ∧ alignN2 p1 p2 = c • p1) ∧
    (¬ vnorm p2 < 1 / 1000000 →
      vnorm (alignN2 p1 p2) = 2 * Real.pi ∧
      ∃ c : ℝ, 0 < c ∧ alignN2 p1 p2 = c • p2) := by
  refine ⟨?_, ?_, ?_⟩
  · intro h2 h1
    rw [alignAngleAxisVectors, dif_pos ⟨h2, h1⟩]
  · intro h2 h1
    have hv0 : 0 < vnorm p1 := lt_of_lt_of_le (by norm_num) (not_lt.mp h1)
    have hc : 0 < 2 * Real.pi / vnorm p1 := div_pos (by positivity) hv0
    rw [alignN2, if_pos h2]
    refine ⟨?_, ⟨2 * Real.pi / vnorm p1, hc, rfl⟩⟩
    rw [vnorm_smul, abs_of_pos hc, div_mul_cancel₀ _ (ne_of_gt hv0)]
  · intro h2
    have hv0 : 0 < vnorm p2 := lt_of_lt_of_le (by norm_num) (not_lt.mp h2)
    have hc : 0 < 2 * Real.pi / vnorm p2 := div_pos (by positivity) hv0
    rw [alignN2, if_neg h2]
    refine ⟨?_, ⟨2 * Real.pi / vnorm p2, hc, rfl⟩⟩
    rw [vnorm_smul, abs_of_pos hc, div_mul_cancel₀ _ (ne_of_gt hv0)]

/-- Witness for C5: both inputs at the identity rotation. -/
theorem claim5_witness :
    vnorm zv < 1 / 1000000 ∧ alignAngleAxisVectors zv zv = zv := by
  have h : vnorm zv < 1 / 1000000 := by
    rw [vnorm_zv]
    norm_num
  exact ⟨h, (claim5_align_threshold_cases zv zv).1 h h⟩

/-- C6 counterexample: at `p1 = 0`, `p2 = (π,0,0)` the first addition strictly
worsens the distance and the first subtraction leaves it exactly unchanged
(does not improve), so the claimed stopping rule returns `p2`; the code
accepts the tie and returns `(−π,0,0) ≠ p2`. -/
theorem claim6_counterexample :
    vnorm (axv Real.pi + alignN2 zv (axv Real.pi) - zv)
      > vnorm (axv Real.pi - zv) ∧
    vnorm (axv Real.pi - alignN2 zv (axv Real.pi) - zv)
      = vnorm (axv Real.pi - zv) ∧
    alignAngleAxisVectors zv (axv Real.pi) = axv (-Real.pi) ∧
    axv (-Real.pi) ≠ axv Real.pi := by
  have hpi := Real.pi_pos
  rw [alignN2_zv_pi]
  refine ⟨?_, ?_, align_eval_pi, ?_⟩
  · rw [axv_add_axv, sub_zv, sub_zv, vnorm_axv, vnorm_axv,
      abs_of_pos (by linarith), abs_of_pos hpi]
    linarith
  · rw [axv_sub_axv, sub_zv, sub_zv, vnorm_axv, vnorm_axv,
      show Real.pi - 2 * Real.pi = -Real.pi by ring, abs_neg]
  · intro hcon
    have h0 : -Real.pi = Real.pi := congrFun hcon 0
    linarith

/-- C6 (amended): the loops accept a step exactly when it does not *strictly
increase* the distance to `p1` (an exact tie keeps stepping) and stop at the
first strict increase; with that amended stopping rule the described procedure
equals the code. -/
theorem claim6_align_loops (p1 p2 : V3r) :
    alignAngleAxisVectors p1 p2 = alignAmended p1 p2 := by
  by_cases h : vnorm p2 < 1 / 1000000 ∧ vnorm p1 < 1 / 1000000
  · rw [alignAngleAxisVectors, alignAmended, dif_pos h, dif_pos h]
  · have hn := alignN2_pos p1 p2 h
    rw [align_unfold p1 p2 h hn, alignAmended_unfold p1 p2 h hn,
      addLoop_eq_addLoopLe, subLoop_eq_subLoopLe]

/-- C7 counterexample: aligning `(π,0,0)` against the origin gives `(−π,0,0)`,
and re-aligning that result gives back `(π,0,0)`: the aligned vector is not a
fixed point of the alignment. -/
theorem claim7_counterexample :
    alignAngleAxisVectors zv (alignAngleAxisVectors zv (axv Real.pi))
      ≠ alignAngleAxisVectors zv (axv Real.pi) := by
  rw [align_eval_pi, align_eval_negpi]
  intro hcon
  have h0 : Real.pi = -Real.pi := congrFun hcon 0
  have hpi := Real.pi_pos
  linarith

/-- C7 (amended): the aligned vector differs from `p2` by an integer multiple
of the periodicity step `n2` and lies at least as close to `p1` as `p2` does;
the fixed-point property claimed in addition fails at exact distance ties (see
the counterexample) and is not asserted. -/
theorem claim7_align_properties (p1 p2 : V3r) :
    (∃ k : ℤ, alignAngleAxisVectors p1 p2 = p2 + (k : ℝ) • alignN2 p1 p2) ∧
    vnorm (alignAngleAxisVectors p1 p2 - p1) ≤ vnorm (p2 - p1) := by
  by_cases h : vnorm p2 < 1 / 1000000 ∧ vnorm p1 < 1 / 1000000
  · rw [alignAngleAxisVectors, dif_pos h]
    exact ⟨⟨0, by simp⟩, le_refl _⟩
  · have hn := alignN2_pos p1 p2 h
    rw [align_unfold p1 p2 h hn]
    obtain ⟨⟨a, ha⟩, hle1⟩ := addLoop_props p1 (alignN2 p1 p2) hn p2
    obtain ⟨⟨b, hb⟩, hle2⟩ :=
      subLoop_props p1 (alignN2 p1 p2) hn (addLoop p1 (alignN2 p1 p2) hn p2)
    constructor
    · refine ⟨(a : ℤ) - (b : ℤ), ?_⟩
      rw [hb, ha]
      funext i
      push_cast
      simp only [Pi.add_apply, Pi.sub_apply, Pi.smul_apply, smul_eq_mul]
      ring
    · exact le_trans hle2 hle1

end Pele
